import Mathlib

/-!
Verification development for the network-management layer of a quantum-network
simulator (files `network_management/reservation.py` and
`network_management/routing.py`).  Python classes are embedded as Lean
structures, methods as pure functions; Python exceptions are modelled with
`Option`/dedicated result constructors, and Python `while` loops are embedded
with an explicit fuel argument that is always instantiated with the loop's
decreasing measure, so every definition is executable.
-/

set_option linter.unusedVariables false

/-- Embedding of `Reservation` (reservation.py).  Simulation times are Python
ints, embedded as `Int`; `memory_size` is a count; `fidelity` (a Python float
that none of the verified operations computes with) is embedded as `Rat`.
The constructor asserts `start_time < end_time` and `memory_size > 0`; these
become the well-formedness predicate `Reservation.wf`. -/
structure Reservation where
  initiator : String
  responder : String
  start_time : Int
  end_time : Int
  memory_size : Nat
  fidelity : Rat
  isvirtual : Bool
deriving DecidableEq, Repr, Inhabited

/-- The assertions of `Reservation.__init__`. -/
def Reservation.wf (r : Reservation) : Prop :=
  r.start_time < r.end_time ∧ 0 < r.memory_size

instance (r : Reservation) : Decidable r.wf := by
  unfold Reservation.wf; infer_instance

/-- Embedding of `MemoryTimeCard` (reservation.py): the card for one memory,
holding its index in the memory array and the ordered reservation list. -/
structure MemoryTimeCard where
  memory_index : Nat
  reservations : List Reservation
deriving DecidableEq, Repr, Inhabited

/-- Result of the `while` loop inside `MemoryTimeCard.schedule_reservation`:
`found` models the `return -1` on overlap, `raised` models the
`raise Exception("Unexpected status")` branch, and `exit s e` models falling
out of the loop with the final values of `start` and `end`. -/
inductive BinRes where
  | found
  | raised
  | exit (start : Nat) (e : Int)
deriving DecidableEq, Repr

/-- Embedding of the `while start <= end` binary-search loop of
`MemoryTimeCard.schedule_reservation`.  `start` is a Nat (it begins at 0 and
only ever becomes `mid + 1`), `e` is an Int (it begins at `len - 1`, possibly
`-1`).  The fuel argument bounds the iteration count; `binSearch` below
instantiates it with the measure `e + 1 - start`, which strictly decreases on
every iteration, so the fuelled function computes exactly the loop. -/
def binGo (phys : List Reservation) (res : Reservation) :
    Nat → Nat → Int → BinRes
  | 0, start, e => .exit start e
  | fuel + 1, start, e =>
    if (start : Int) ≤ e then
      if res.end_time < (phys.getD ((start + e.toNat) / 2) default).start_time then
        binGo phys res fuel start (((start + e.toNat) / 2 : Nat) - 1)
      else if (phys.getD ((start + e.toNat) / 2) default).end_time < res.start_time then
        binGo phys res fuel ((start + e.toNat) / 2 + 1) e
      else if max (phys.getD ((start + e.toNat) / 2) default).start_time res.start_time ≤
          min (phys.getD ((start + e.toNat) / 2) default).end_time res.end_time then
        .found
      else
        .raised
    else .exit start e

/-- One full run of the inner `while` loop, with the fuel set to its measure. -/
def binSearch (phys : List Reservation) (res : Reservation) (start : Nat) (e : Int) :
    BinRes :=
  binGo phys res (e + 1 - start).toNat start e

/-- Result of `MemoryTimeCard.schedule_reservation`: an insertion index,
the `-1` rejection, or the raised exception. -/
inductive SchedRes where
  | pos (n : Nat)
  | reject
  | raised
deriving DecidableEq, Repr

/-- Embedding of the `for res in physical_reservations` loop of
`schedule_reservation`: the bounds `start`/`e` persist across iterations and
each iteration runs the binary search for the stored reservation `res`. -/
def schedLoop (phys : List Reservation) :
    List Reservation → Nat → Int → SchedRes
  | [], start, _ => .pos start
  | res :: rest, start, e =>
    match binSearch phys res start e with
    | .found => .reject
    | .raised => .raised
    | .exit s2 e2 => schedLoop phys rest s2 e2

/-- Embedding of `MemoryTimeCard.schedule_reservation`.  Exactly as in the
source, the candidate `resv` is never consulted: the outer loop iterates over
the card's own non-virtual reservations and binary-searches each of them
against the same list. -/
def MemoryTimeCard.schedule_reservation (card : MemoryTimeCard) (resv : Reservation) :
    SchedRes :=
  schedLoop (card.reservations.filter (fun r => !r.isvirtual))
    (card.reservations.filter (fun r => !r.isvirtual))
    0 ((card.reservations.filter (fun r => !r.isvirtual)).length - 1)

/-- Python's `list.insert(pos, a)`: insert before index `pos`, clamped to the
end of the list. -/
def pyInsert {α : Type} (pos : Nat) (a : α) : List α → List α
  | [] => [a]
  | x :: xs =>
    match pos with
    | 0 => a :: x :: xs
    | p + 1 => x :: pyInsert p a xs

/-- Embedding of `MemoryTimeCard.add`: `none` models a propagated exception;
otherwise the Bool is the return value and the card is the updated card. -/
def MemoryTimeCard.add (card : MemoryTimeCard) (r : Reservation) :
    Option (Bool × MemoryTimeCard) :=
  match card.schedule_reservation r with
  | .raised => none
  | .reject => some (false, card)
  | .pos p =>
    some (true, { card with reservations := pyInsert p r card.reservations })

/-- Removal of the first occurrence, as `list.index` + `list.pop` do. -/
def removeFirst (r : Reservation) : List Reservation → List Reservation
  | [] => []
  | x :: xs => if x = r then xs else x :: removeFirst r xs

/-- Embedding of `MemoryTimeCard.remove`: the Bool records whether the
reservation was present (Python returns `False` on `ValueError`). -/
def MemoryTimeCard.remove (card : MemoryTimeCard) (r : Reservation) :
    Bool × MemoryTimeCard :=
  if r ∈ card.reservations then
    (true, { card with reservations := removeFirst r card.reservations })
  else (false, card)

/-- String constants used in concrete evaluations. -/
def nodeI : String := "i"

def nodeR : String := "r"

def nodeM : String := "m"

/-- A concrete non-virtual reservation with window [1, 2]. -/
def resvA : Reservation :=
  { initiator := nodeI, responder := nodeR, start_time := 1, end_time := 2,
    memory_size := 1, fidelity := 1, isvirtual := false }

/-- A concrete non-virtual reservation with window [10, 20], disjoint from
`resvA` (`resvA.end_time < resvB.start_time`). -/
def resvB : Reservation :=
  { initiator := nodeI, responder := nodeR, start_time := 10, end_time := 20,
    memory_size := 1, fidelity := 1, isvirtual := false }

/-- An empty time card. -/
def card0 : MemoryTimeCard := { memory_index := 0, reservations := [] }

/-- The card after `resvA` was added. -/
def card1 : MemoryTimeCard := { memory_index := 0, reservations := [resvA] }

/-- The non-virtual reservations currently on a card. -/
def physOf (c : MemoryTimeCard) : List Reservation :=
  c.reservations.filter (fun x => !x.isvirtual)

lemma pyInsert_zero {α : Type} (a : α) (l : List α) : pyInsert 0 a l = a :: l := by
  cases l <;> rfl

lemma schedule_reservation_of_no_phys (card : MemoryTimeCard) (r : Reservation)
    (h : physOf card = []) : card.schedule_reservation r = .pos 0 := by
  unfold MemoryTimeCard.schedule_reservation
  unfold physOf at h
  rw [h]
  rfl

lemma binGo_self_overlap (x : Reservation) (hx : x.start_time ≤ x.end_time) :
    binGo [x] x 1 0 0 = .found := by
  have h1 : ¬ (x.end_time < x.start_time) := by omega
  simp [binGo, List.getD, h1, hx]

lemma schedule_reservation_of_single_phys (card : MemoryTimeCard)
    (x : Reservation) (r : Reservation)
    (h : physOf card = [x]) (hx : x.start_time ≤ x.end_time) :
    card.schedule_reservation r = .reject := by
  unfold MemoryTimeCard.schedule_reservation
  unfold physOf at h
  rw [h]
  have h1 : (([x] : List Reservation).length : Int) - 1 = 0 := by simp
  rw [h1]
  show (match binSearch [x] x 0 0 with
    | .found => SchedRes.reject
    | .raised => SchedRes.raised
    | .exit s2 e2 => schedLoop [x] [] s2 e2) = .reject
  have h2 : binSearch [x] x 0 0 = .found := by
    unfold binSearch
    have h3 : ((0 : Int) + 1 - (0 : Nat)).toNat = 1 := by decide
    rw [h3]
    exact binGo_self_overlap x hx
  rw [h2]

lemma removeFirst_sublist (r : Reservation) (l : List Reservation) :
    (removeFirst r l).Sublist l := by
  induction l with
  | nil => simp [removeFirst]
  | cons x xs ih =>
    by_cases h : x = r
    · simp [removeFirst, h]
    · simp only [removeFirst, if_neg h]
      exact ih.cons₂ x

/-- Card states reachable from the empty card through `add` and `remove`,
with `add` applied only to reservations satisfying the constructor
assertions. -/
inductive CardReach : MemoryTimeCard → Prop where
  | empty (i : Nat) : CardReach { memory_index := i, reservations := [] }
  | add_step (c c2 : MemoryTimeCard) (r : Reservation) (b : Bool) :
      CardReach c → r.wf → c.add r = some (b, c2) → CardReach c2
  | remove_step (c : MemoryTimeCard) (r : Reservation) :
      CardReach c → CardReach (c.remove r).2

lemma cardReach_invariant (c : MemoryTimeCard) (h : CardReach c) :
    (physOf c).length ≤ 1 ∧ ∀ x ∈ c.reservations, x.start_time ≤ x.end_time := by
  induction h with
  | empty i => simp [physOf]
  | add_step c c2 r b hc hwf hadd ih =>
    obtain ⟨h1, h2⟩ := ih
    match hp : physOf c with
    | [] =>
      rw [MemoryTimeCard.add, schedule_reservation_of_no_phys c r hp] at hadd
      simp only [Option.some.injEq, Prod.mk.injEq] at hadd
      obtain ⟨hb, hc2⟩ := hadd
      subst hc2
      constructor
      · show ((pyInsert 0 r c.reservations).filter (fun x => !x.isvirtual)).length ≤ 1
        rw [pyInsert_zero]
        unfold physOf at hp
        by_cases hv : r.isvirtual <;> simp [hv, hp]
      · intro x hx
        rw [pyInsert_zero, List.mem_cons] at hx
        rcases hx with hx | hx
        · subst hx; exact le_of_lt hwf.1
        · exact h2 x hx
    | [x] =>
      have hxl : x ∈ c.reservations := by
        have := List.mem_filter.mp (hp ▸ List.mem_singleton_self x)
        exact this.1
      have hx : x.start_time ≤ x.end_time := h2 x hxl
      rw [MemoryTimeCard.add,
        schedule_reservation_of_single_phys c x r hp hx] at hadd
      simp only [Option.some.injEq, Prod.mk.injEq] at hadd
      obtain ⟨hb2, hc3⟩ := hadd
      subst hc3
      exact ⟨h1, h2⟩
    | x :: y :: rest =>
      exfalso
      rw [hp] at h1
      simp at h1
  | remove_step c r hc ih =>
    obtain ⟨h1, h2⟩ := ih
    unfold MemoryTimeCard.remove
    by_cases hm : r ∈ c.reservations
    · simp only [if_pos hm]
      constructor
      · calc ((removeFirst r c.reservations).filter (fun x => !x.isvirtual)).length
            ≤ (c.reservations.filter (fun x => !x.isvirtual)).length :=
              ((removeFirst_sublist r c.reservations).filter _).length_le
          _ ≤ 1 := h1
      · intro x hx
        exact h2 x ((removeFirst_sublist r c.reservations).mem hx)
    · simp only [if_neg hm]
      exact ⟨h1, h2⟩

/-- C1.  The claim is wrong about the code: `schedule_reservation` never
reads its candidate argument, so once one non-virtual reservation sits on a
card every later `add` is rejected, even for a disjoint window.  This theorem
evaluates the embedded code on the failing input: `resvA = [1,2]` and
`resvB = [10,20]` are non-virtual and disjoint, `add resvA` succeeds on the
empty card, yet the subsequent `add resvB` returns `False`. -/
theorem c1_disjoint_add_rejected :
    resvA.end_time < resvB.start_time ∧
      resvA.isvirtual = false ∧ resvB.isvirtual = false ∧
      card0.add resvA = some (true, card1) ∧
      card1.add resvB = some (false, card1) := by
  decide

/-- C9.  The result of `schedule_reservation` does not depend on the
reservation argument: the method body never consults `resv`, so any two
candidates yield the same result on the same card. -/
theorem c9_schedule_reservation_ignores_argument :
    ∀ (card : MemoryTimeCard) (r1 r2 : Reservation),
      card.schedule_reservation r1 = card.schedule_reservation r2 :=
  fun _ _ _ => rfl

/-- C10.  Every card state reachable from the empty card through `add` and
`remove` carries at most one non-virtual reservation: an `add` of a
non-virtual reservation succeeds only on a card whose non-virtual list is
empty, and `remove` only shrinks the list. -/
theorem c10_at_most_one_physical (c : MemoryTimeCard) (h : CardReach c) :
    (c.reservations.filter (fun x => !x.isvirtual)).length ≤ 1 :=
  (cardReach_invariant c h).1

/-- Witness for C10 at a concrete reachable card: the card obtained by adding
`resvA` to the empty card. -/
theorem c10_witness :
    (card1.reservations.filter (fun x => !x.isvirtual)).length ≤ 1 :=
  c10_at_most_one_physical card1
    (CardReach.add_step card0 card1 resvA true (CardReach.empty 0)
      (by decide) (by decide))

/-- Whether `card.add r` would succeed (used to count accepting cards). -/
def addOkB (c : MemoryTimeCard) (r : Reservation) : Bool :=
  match c.add r with
  | some (true, _) => true
  | _ => false

/-- Embedding of the `for card in self.timecards` loop of
`ResourceReservationProtocol.schedule`: each card is offered the reservation,
the counter drops on success, and `counter == 0` breaks out of the loop.  The
returned list pairs every card's (possibly updated) state with the flag
recording whether the add succeeded — the Python code keeps the successful
cards in its local `cards` list for the rollback. -/
def scheduleCardsLoop (r : Reservation) :
    List MemoryTimeCard → Int → Option (List (MemoryTimeCard × Bool) × Int)
  | [], counter => some ([], counter)
  | c :: rest, counter =>
    match c.add r with
    | none => none
    | some (b, c2) =>
      if (if b then counter - 1 else counter) = 0 then
        some ((c2, b) :: rest.map (fun x => (x, false)), 0)
      else
        match scheduleCardsLoop r rest (if b then counter - 1 else counter) with
        | none => none
        | some (tl, cf) => some ((c2, b) :: tl, cf)

/-- The memory requirement of `schedule`: `memory_size` at an endpoint
(`self.own.name in [reservation.initiator, reservation.responder]`),
`memory_size * 2` at an intermediate node. -/
def requiredCount (ownName : String) (r : Reservation) : Nat :=
  if ownName = r.initiator ∨ ownName = r.responder then r.memory_size
  else r.memory_size * 2

/-- Rollback of one tentative add (`card.remove(reservation)` is called by
the Python code exactly on the cards whose add succeeded). -/
def rollbackCard (r : Reservation) (p : MemoryTimeCard × Bool) : MemoryTimeCard :=
  if p.2 then (p.1.remove r).2 else p.1

/-- Embedding of `ResourceReservationProtocol.schedule`: the Bool is the
return value, the card list is the node's time-card state afterwards, and
`none` models a propagated exception. -/
def ResourceReservationProtocol.schedule (ownName : String)
    (cards : List MemoryTimeCard) (r : Reservation) :
    Option (Bool × List MemoryTimeCard) :=
  match scheduleCardsLoop r cards ((requiredCount ownName r : Nat) : Int) with
  | none => none
  | some (tagged, cf) =>
    if 0 < cf then some (false, tagged.map (rollbackCard r))
    else some (true, tagged.map Prod.fst)

lemma getD_interval_le (l : List Reservation)
    (hl : ∀ x ∈ l, x.start_time ≤ x.end_time) :
    ∀ n, (l.getD n default).start_time ≤ (l.getD n default).end_time := by
  induction l with
  | nil => intro n; simp [List.getD]; rfl
  | cons x xs ih =>
    intro n
    match n with
    | 0 => exact hl x (List.mem_cons_self x xs)
    | n + 1 =>
      exact ih (fun y hy => hl y (List.mem_cons_of_mem x hy)) n

lemma binGo_ne_raised (phys : List Reservation) (res : Reservation)
    (hres : res.start_time ≤ res.end_time)
    (hphys : ∀ x ∈ phys, x.start_time ≤ x.end_time) :
    ∀ (fuel start : Nat) (e : Int), binGo phys res fuel start e ≠ .raised := by
  intro fuel
  induction fuel with
  | zero => intro start e; simp [binGo]
  | succ f ih =>
    intro start e
    rw [binGo]
    split_ifs with h1 h2 h3 h4
    · exact ih start _
    · exact ih _ e
    · simp
    · exfalso
      have hm := getD_interval_le phys hphys ((start + e.toNat) / 2)
      simp only [max_le_iff, le_min_iff] at h4
      omega
    · simp

lemma schedLoop_ne_raised (phys : List Reservation)
    (hphys : ∀ x ∈ phys, x.start_time ≤ x.end_time) :
    ∀ (todo : List Reservation), (∀ x ∈ todo, x.start_time ≤ x.end_time) →
      ∀ (start : Nat) (e : Int), schedLoop phys todo start e ≠ .raised := by
  intro todo
  induction todo with
  | nil => intro _ start e; simp [schedLoop]
  | cons res rest ih =>
    intro htodo start e
    rw [schedLoop]
    have hres := htodo res (List.mem_cons_self res rest)
    have hbin := binGo_ne_raised phys res hres hphys (e + 1 - start).toNat start e
    match hb : binSearch phys res start e with
    | .found => simp
    | .raised => exact absurd hb hbin
    | .exit s2 e2 =>
      exact ih (fun y hy => htodo y (List.mem_cons_of_mem res hy)) s2 e2

lemma add_ne_none (c : MemoryTimeCard) (r : Reservation)
    (h : ∀ x ∈ c.reservations, x.start_time ≤ x.end_time) :
    c.add r ≠ none := by
  have hphys : ∀ x ∈ physOf c, x.start_time ≤ x.end_time := by
    intro x hx
    exact h x (List.mem_filter.mp hx).1
  have hsched : c.schedule_reservation r ≠ .raised :=
    schedLoop_ne_raised (physOf c) hphys (physOf c) hphys 0 _
  unfold MemoryTimeCard.add
  match hs : c.schedule_reservation r with
  | .raised => exact absurd hs hsched
  | .reject => simp
  | .pos p => simp

lemma scheduleCardsLoop_count (r : Reservation) :
    ∀ (cards : List MemoryTimeCard) (counter : Int),
      (∀ c ∈ cards, c.add r ≠ none) →
      ∃ tagged cf, scheduleCardsLoop r cards counter = some (tagged, cf) ∧
        (0 < cf ↔ ((cards.filter (fun c => addOkB c r)).length : Int) < counter) := by
  intro cards
  induction cards with
  | nil =>
    intro counter _
    exact ⟨[], counter, rfl, by simp⟩
  | cons c rest ih =>
    intro counter hne
    have hc := hne c (List.mem_cons_self c rest)
    match hadd : c.add r with
    | none => exact absurd hadd hc
    | some (b, c2) =>
      have hok : addOkB c r = b := by
        unfold addOkB
        rw [hadd]
        cases b <;> rfl
      have hlen : (((c :: rest).filter (fun c => addOkB c r)).length : Int) =
          ((rest.filter (fun c => addOkB c r)).length : Int) + (if b then 1 else 0) := by
        rw [List.filter_cons, hok]
        cases b <;> simp
      by_cases hz : (if b then counter - 1 else counter) = 0
      · refine ⟨(c2, b) :: rest.map (fun x => (x, false)), 0, ?_, ?_⟩
        · simp only [scheduleCardsLoop, hadd]
          rw [if_pos hz]
        · rw [hlen]
          constructor
          · intro h0; exact absurd h0 (by omega)
          · intro hlt
            exfalso
            have hrest : (0 : Int) ≤ ((rest.filter (fun c => addOkB c r)).length : Int) :=
              Int.natCast_nonneg _
            cases b <;> simp_all <;> omega
      · obtain ⟨tl, cf, heq, hiff⟩ := ih (if b then counter - 1 else counter)
          (fun x hx => hne x (List.mem_cons_of_mem c hx))
        refine ⟨(c2, b) :: tl, cf, ?_, ?_⟩
        · simp only [scheduleCardsLoop, hadd]
          rw [if_neg hz, heq]
        · rw [hlen, hiff]
          cases b
          · simp
          · simp
            omega

/-- C2.  With well-formed intervals on every card (so that no exception can
fire), `schedule` succeeds exactly when, iterating the cards in index order,
the number of successful `card.add` calls reaches `memory_size` at an
endpoint node and `2 * memory_size` elsewhere; equivalently, when at least
that many of the node's cards accept the reservation. -/
theorem c2_schedule_succeeds_iff (ownName : String) (cards : List MemoryTimeCard)
    (r : Reservation)
    (hwf : ∀ c ∈ cards, ∀ x ∈ c.reservations, x.start_time ≤ x.end_time) :
    (Option.map Prod.fst (ResourceReservationProtocol.schedule ownName cards r) =
        some true ↔
      requiredCount ownName r ≤ (cards.filter (fun c => addOkB c r)).length) := by
  have hne : ∀ c ∈ cards, c.add r ≠ none := fun c hc => add_ne_none c r (hwf c hc)
  obtain ⟨tagged, cf, heq, hiff⟩ :=
    scheduleCardsLoop_count r cards ((requiredCount ownName r : Nat) : Int) hne
  unfold ResourceReservationProtocol.schedule
  rw [heq]
  by_cases h : 0 < cf
  · have hlt := hiff.mp h
    simp only [if_pos h, Option.map_some']
    constructor
    · intro hfalse; simp at hfalse
    · intro hcount
      exfalso
      have : ((cards.filter (fun c => addOkB c r)).length : Int) <
          ((requiredCount ownName r : Nat) : Int) := hlt
      omega
  · have hge := (not_iff_not.mpr hiff).mp h
    simp only [if_neg h, Option.map_some']
    constructor
    · intro _
      omega
    · intro _
      trivial

/-- Witness for C2: at the initiator with one free card and `memory_size = 1`,
the requirement (1) is met and `schedule` reports success. -/
theorem c2_witness :
    requiredCount nodeI resvA ≤ (([card0].filter (fun c => addOkB c resvA)).length) ∧
      Option.map Prod.fst (ResourceReservationProtocol.schedule nodeI [card0] resvA) =
        some true := by
  refine ⟨by decide, ?_⟩
  exact (c2_schedule_succeeds_iff nodeI [card0] resvA (by decide)).mpr (by decide)

lemma mem_pyInsert (p : Nat) (a : α) (l : List α) : a ∈ pyInsert p a l := by
  induction l generalizing p with
  | nil => simp [pyInsert]
  | cons x xs ih =>
    match p with
    | 0 => simp [pyInsert]
    | q + 1 =>
      simp only [pyInsert, List.mem_cons]
      exact Or.inr (ih q)

lemma removeFirst_pyInsert (r : Reservation) (l : List Reservation) (p : Nat)
    (h : r ∉ l) : removeFirst r (pyInsert p r l) = l := by
  induction l generalizing p with
  | nil => simp [pyInsert, removeFirst]
  | cons x xs ih =>
    have hxr : ¬ (x = r) := fun hx => h (hx ▸ List.mem_cons_self x xs)
    match p with
    | 0 =>
      simp [pyInsert, removeFirst]
    | q + 1 =>
      simp only [pyInsert, removeFirst, if_neg hxr]
      rw [ih q (fun hm => h (List.mem_cons_of_mem x hm))]

lemma add_rollback (c : MemoryTimeCard) (r : Reservation) (b : Bool)
    (c2 : MemoryTimeCard) (h : c.add r = some (b, c2))
    (hmem : r ∉ c.reservations) : rollbackCard r (c2, b) = c := by
  unfold MemoryTimeCard.add at h
  match hs : c.schedule_reservation r with
  | .raised => rw [hs] at h; cases h
  | .reject =>
    rw [hs] at h
    simp only [Option.some.injEq, Prod.mk.injEq] at h
    obtain ⟨hb, hc⟩ := h
    subst hb; subst hc
    rfl
  | .pos p =>
    rw [hs] at h
    simp only [Option.some.injEq, Prod.mk.injEq] at h
    obtain ⟨hb, hc⟩ := h
    subst hb; subst hc
    unfold rollbackCard MemoryTimeCard.remove
    simp only [if_pos (mem_pyInsert p r c.reservations)]
    show ({ c with reservations := removeFirst r (pyInsert p r c.reservations) } :
      MemoryTimeCard) = c
    rw [removeFirst_pyInsert r c.reservations p hmem]

lemma scheduleCardsLoop_rollback (r : Reservation) :
    ∀ (cards : List MemoryTimeCard) (counter : Int)
      (tagged : List (MemoryTimeCard × Bool)) (cf : Int),
      scheduleCardsLoop r cards counter = some (tagged, cf) →
      (∀ c ∈ cards, r ∉ c.reservations) →
      tagged.map (rollbackCard r) = cards := by
  intro cards
  induction cards with
  | nil =>
    intro counter tagged cf heq _
    simp only [scheduleCardsLoop, Option.some.injEq, Prod.mk.injEq] at heq
    rw [← heq.1]
    rfl
  | cons c rest ih =>
    intro counter tagged cf heq hmem
    match hadd : c.add r with
    | none => simp only [scheduleCardsLoop, hadd] at heq; cases heq
    | some (b, c2) =>
      simp only [scheduleCardsLoop, hadd] at heq
      have hhead : rollbackCard r (c2, b) = c :=
        add_rollback c r b c2 hadd (hmem c (List.mem_cons_self c rest))
      by_cases hz : (if b then counter - 1 else counter) = 0
      · simp only [if_pos hz, Option.some.injEq, Prod.mk.injEq] at heq
        rw [← heq.1]
        simp only [List.map_cons, List.map_map, hhead]
        have : (rollbackCard r ∘ fun x => (x, false)) = id := by
          funext x; rfl
        rw [this, List.map_id]
      · simp only [if_neg hz] at heq
        match hrec : scheduleCardsLoop r rest (if b then counter - 1 else counter) with
        | none => rw [hrec] at heq; cases heq
        | some (tl, cf2) =>
          rw [hrec] at heq
          simp only [Option.some.injEq, Prod.mk.injEq] at heq
          rw [← heq.1]
          simp only [List.map_cons, hhead]
          rw [ih _ tl cf2 hrec (fun x hx => hmem x (List.mem_cons_of_mem c hx))]

/-- C3.  If `schedule` returns `False` then every time-card is exactly as it
was before the call: every tentative add is rolled back.  The hypothesis that
the candidate is not already present on a card reflects Python object
identity: `remove` pops the very object `add` inserted, which in the
structural embedding requires the card not to hold an equal reservation
beforehand. -/
theorem c3_failed_schedule_rolls_back (ownName : String)
    (cards : List MemoryTimeCard) (r : Reservation) (cards2 : List MemoryTimeCard)
    (h : ResourceReservationProtocol.schedule ownName cards r = some (false, cards2))
    (hmem : ∀ c ∈ cards, r ∉ c.reservations) : cards2 = cards := by
  unfold ResourceReservationProtocol.schedule at h
  match heq : scheduleCardsLoop r cards ((requiredCount ownName r : Nat) : Int) with
  | none => rw [heq] at h; cases h
  | some (tagged, cf) =>
    rw [heq] at h
    by_cases hcf : 0 < cf
    · simp only [if_pos hcf, Option.some.injEq, Prod.mk.injEq] at h
      rw [← h.2]
      exact scheduleCardsLoop_rollback r cards _ tagged cf heq hmem
    · simp only [if_neg hcf, Option.some.injEq, Prod.mk.injEq] at h
      cases h.1

/-- Witness for C3: an intermediate node (requirement 2) with a single card
accepts only one tentative add, so `schedule` fails and returns the card list
unchanged. -/
theorem c3_witness :
    ResourceReservationProtocol.schedule nodeM [card0] resvA = some (false, [card0]) ∧
      [card0] = [card0] := by
  have heval : ResourceReservationProtocol.schedule nodeM [card0] resvA =
      some (false, [card0]) := by decide
  exact ⟨heval,
    c3_failed_schedule_rolls_back nodeM [card0] resvA [card0] heval (by decide)⟩

/-- Outcome of the REQUEST branch of `ResourceReservationProtocol.pop`:
the failed `assert`, a propagated exception from `schedule`, forwarding the
REQUEST toward the responder, approving at the responder (rule creation and
loading are modelled separately by `load_rules`), or sending REJECT back
toward the initiator. -/
inductive PopOutcome where
  | assertFail
  | raised
  | forwardedToResponder (cards2 : List MemoryTimeCard)
  | approved (cards2 : List MemoryTimeCard) (path : List String)
  | rejectedToInitiator (cards2 : List MemoryTimeCard)
deriving DecidableEq, Repr

/-- Embedding of the `RSVPMsgType.REQUEST` branch of
`ResourceReservationProtocol.pop`: first the assertion
`now < reservation.start_time`, then `schedule`, then the responder check.
`qcapNodes` is the list of node names accumulated in the message's qcaps. -/
def popRequest (now : Int) (ownName : String) (cards : List MemoryTimeCard)
    (r : Reservation) (qcapNodes : List String) : PopOutcome :=
  if now < r.start_time then
    match ResourceReservationProtocol.schedule ownName cards r with
    | none => .raised
    | some (true, cards2) =>
      if ownName = r.responder then .approved cards2 (qcapNodes ++ [ownName])
      else .forwardedToResponder cards2
    | some (false, cards2) => .rejectedToInitiator cards2
  else .assertFail

/-- C5.  A received REQUEST fails the assertion exactly when the current
simulation time has reached the reservation's start time; whenever the
message is scheduled, forwarded, approved or rejected, `now` is strictly
below `start_time`. -/
theorem c5_request_assert_iff (now : Int) (ownName : String)
    (cards : List MemoryTimeCard) (r : Reservation) (qcapNodes : List String) :
    popRequest now ownName cards r qcapNodes = .assertFail ↔ r.start_time ≤ now := by
  unfold popRequest
  by_cases h : now < r.start_time
  · rw [if_pos h]
    constructor
    · intro hm
      exfalso
      match hs : ResourceReservationProtocol.schedule ownName cards r with
      | none => simp only [hs] at hm; cases hm
      | some (true, cards2) =>
        simp only [hs] at hm
        by_cases ho : ownName = r.responder
        · rw [if_pos ho] at hm; cases hm
        · rw [if_neg ho] at hm; cases hm
      | some (false, cards2) => simp only [hs] at hm; cases hm
    · intro hle
      exfalso
      omega
  · rw [if_neg h]
    simp only [true_iff, iff_true]
    omega

/-- The process wrapped in an event scheduled by `load_rules`: resetting a
memory to RAW, loading a rule, or expiring a rule.  Rules are identified by
an index into the rule list. -/
inductive ProcKind where
  | updateRaw (memory_index : Nat)
  | load (rule : Nat)
  | expire (rule : Nat)
deriving DecidableEq, Repr

/-- Embedding of `Event(time, process, priority)`; `priority := none` models
the call `Event(time, process)` that leaves the priority at its default. -/
structure Event where
  time : Int
  process : ProcKind
  priority : Option Nat
deriving DecidableEq, Repr

/-- Embedding of `ResourceReservationProtocol.load_rules` as the list of
events it schedules, in scheduling order: first, for every time-card holding
the reservation, a reset-to-RAW update at `end_time` with priority 1; then,
for every rule, a `load` at `start_time` (default priority) and an `expire`
at `end_time` with priority 0. -/
def load_rules (cards : List MemoryTimeCard) (rules : List Nat) (r : Reservation) :
    List Event :=
  ((cards.filter (fun c => r ∈ c.reservations)).map
      (fun c => { time := r.end_time, process := .updateRaw c.memory_index,
                  priority := some 1 }))
    ++ rules.flatMap (fun ru =>
      [ { time := r.start_time, process := .load ru, priority := none },
        { time := r.end_time, process := .expire ru, priority := some 0 } ])

/-- Modelled from the spec: the discrete-event timeline (the kernel event
queue, whose sources are not part of this repository) dequeues events in
`(time, priority, insertion-order)` order with a lower priority number
executing earlier at equal times.  The relation below captures the part the
claims rely on: an event runs strictly before another when its time is
smaller, or the times are equal and both priorities are explicit with the
first one smaller; it leaves default-priority events unordered at equal
times. -/
def Event.runsBefore (a b : Event) : Prop :=
  a.time < b.time ∨
    (a.time = b.time ∧
      ∃ pa pb, a.priority = some pa ∧ b.priority = some pb ∧ pa < pb)

lemma load_rules_expire_shape (cards : List MemoryTimeCard) (rules : List Nat)
    (r : Reservation) (e : Event) (he : e ∈ load_rules cards rules r)
    (hp : ∃ ru, e.process = ProcKind.expire ru) :
    e.time = r.end_time ∧ e.priority = some 0 := by
  obtain ⟨ru, hru⟩ := hp
  unfold load_rules at he
  rw [List.mem_append] at he
  rcases he with he | he
  · obtain ⟨c, hc, hce⟩ := List.mem_map.mp he
    rw [← hce] at hru
    cases hru
  · obtain ⟨ru2, hru2, hmem⟩ := List.mem_flatMap.mp he
    simp only [List.mem_cons, List.not_mem_nil, or_false] at hmem
    rcases hmem with hmem | hmem
    · rw [hmem] at hru
      cases hru
    · rw [hmem]
      exact ⟨rfl, rfl⟩

lemma load_rules_updateRaw_shape (cards : List MemoryTimeCard) (rules : List Nat)
    (r : Reservation) (e : Event) (he : e ∈ load_rules cards rules r)
    (hp : ∃ i, e.process = ProcKind.updateRaw i) :
    e.time = r.end_time ∧ e.priority = some 1 := by
  obtain ⟨i, hi⟩ := hp
  unfold load_rules at he
  rw [List.mem_append] at he
  rcases he with he | he
  · obtain ⟨c, hc, hce⟩ := List.mem_map.mp he
    rw [← hce]
    exact ⟨rfl, rfl⟩
  · obtain ⟨ru2, hru2, hmem⟩ := List.mem_flatMap.mp he
    simp only [List.mem_cons, List.not_mem_nil, or_false] at hmem
    rcases hmem with hmem | hmem
    · rw [hmem] at hi; cases hi
    · rw [hmem] at hi; cases hi

/-- C6.  `load_rules` schedules a `load(rule)` event at `start_time` for
every rule, an `expire(rule)` event at `end_time` with priority 0 for every
rule, and a reset-to-RAW update at `end_time` with priority 1 for every
reserved memory; under the timeline ordering, every rule-expire event runs
strictly before every memory-reset event. -/
theorem c6_load_rules_events (cards : List MemoryTimeCard) (rules : List Nat)
    (r : Reservation) :
    (∀ ru ∈ rules,
        ({ time := r.start_time, process := .load ru, priority := none } : Event) ∈
            load_rules cards rules r ∧
          ({ time := r.end_time, process := .expire ru, priority := some 0 } : Event) ∈
            load_rules cards rules r) ∧
      (∀ c ∈ cards, r ∈ c.reservations →
        ({ time := r.end_time, process := .updateRaw c.memory_index,
           priority := some 1 } : Event) ∈ load_rules cards rules r) ∧
      (∀ e1 ∈ load_rules cards rules r, ∀ e2 ∈ load_rules cards rules r,
        (∃ ru, e1.process = ProcKind.expire ru) →
          (∃ i, e2.process = ProcKind.updateRaw i) → e1.runsBefore e2) := by
  refine ⟨?_, ?_, ?_⟩
  · intro ru hru
    constructor
    · unfold load_rules
      rw [List.mem_append]
      right
      rw [List.mem_flatMap]
      exact ⟨ru, hru, List.mem_cons_self _ _⟩
    · unfold load_rules
      rw [List.mem_append]
      right
      rw [List.mem_flatMap]
      exact ⟨ru, hru, List.mem_cons_of_mem _ (List.mem_cons_self _ _)⟩
  · intro c hc hrc
    unfold load_rules
    rw [List.mem_append]
    left
    rw [List.mem_map]
    exact ⟨c, List.mem_filter.mpr ⟨hc, by simpa using hrc⟩, rfl⟩
  · intro e1 he1 e2 he2 hp1 hp2
    obtain ⟨ht1, hq1⟩ := load_rules_expire_shape cards rules r e1 he1 hp1
    obtain ⟨ht2, hq2⟩ := load_rules_updateRaw_shape cards rules r e2 he2 hp2
    right
    exact ⟨ht1.trans ht2.symm, 0, 1, hq1, hq2, Nat.zero_lt_one⟩

/-- Witness for C6 on a concrete node state: one card holding `resvA` and a
single rule. -/
theorem c6_witness :
    ({ time := resvA.end_time, process := .expire 0, priority := some 0 } : Event) ∈
        load_rules [card1] [0] resvA ∧
      Event.runsBefore
        { time := resvA.end_time, process := .expire 0, priority := some 0 }
        { time := resvA.end_time, process := .updateRaw 0, priority := some 1 } := by
  have h := c6_load_rules_events [card1] [0] resvA
  refine ⟨(h.1 0 (by decide)).2, ?_⟩
  refine h.2.2 _ (h.1 0 (by decide)).2 _ ?_ ⟨0, rfl⟩ ⟨0, rfl⟩
  have h2 := h.2.1 card1 (by decide) (by decide)
  exact h2

/-- Memory states relevant to the rule conditions (Python uses strings). -/
inductive MemState where
  | RAW
  | OCCUPIED
  | ENTANGLED
  | EXPIRED
deriving DecidableEq, Repr

/-- The part of `MemoryInfo` consulted by the generation-rule condition:
its index in the memory array and its state. -/
structure MemoryInfo where
  index : Nat
  state : MemState
deriving DecidableEq, Repr

/-- Embedding of the closure `eg_rule_condition` created in
`create_rules` for generation toward the left neighbor (`index > 0`, left
neighbor physical; the enclosing guard `path[index-1] in neighbors` selects
when this rule is installed and is not part of the condition).  The captured
variables are the reserved `memory_indices`, the reservation's
`memory_size`, the node's position `index` in `path`, and the node's
physical `neighbors`.  Note that the code appends the literal value
`reservation.memory_size` to the matched index list when the right neighbor
is not physical. -/
def eg_left_memory_list (memory_indices : List Nat) (memory_size : Nat)
    (index : Nat) (path : List String) (neighbors : List String) : List Nat :=
  if index < path.length - 1 ∧ path.getD (index + 1) default ∉ neighbors
  then memory_indices.take memory_size ++ [memory_size]
  else memory_indices.take memory_size

/-- The test performed by the closure on a memory: RAW state and index in the
computed `memory_list`. -/
def eg_rule_condition_left (memory_indices : List Nat) (memory_size : Nat)
    (index : Nat) (path : List String) (neighbors : List String)
    (memory_info : MemoryInfo) : List MemoryInfo :=
  if memory_info.state = MemState.RAW ∧
      memory_info.index ∈
        eg_left_memory_list memory_indices memory_size index path neighbors then
    [memory_info]
  else []

/-- C7, counterexample.  With reserved indices `[5,6,7,8]` and
`memory_size = 2` at position 1 of a three-node path whose right neighbor is
virtual, the claim predicts that the condition matches RAW memories with
index in the first two reserved indices extended by the donated reserved
index `memory_indices[2] = 7`, i.e. `{5,6,7}`.  The code instead appends the
literal value 2: it matches index 2 — which is not a reserved index at
all — and fails to match the reserved index 7. -/
theorem c7_counterexample :
    eg_rule_condition_left [5, 6, 7, 8] 2 1 [nodeI, nodeM, nodeR] [nodeI]
        { index := 2, state := .RAW } = [ { index := 2, state := .RAW } ] ∧
      eg_rule_condition_left [5, 6, 7, 8] 2 1 [nodeI, nodeM, nodeR] [nodeI]
        { index := 7, state := .RAW } = [] ∧
      ([5, 6, 7, 8].take 2 ++ [[5, 6, 7, 8].getD 2 0]) = [5, 6, 7] ∧
      2 ∉ [5, 6, 7, 8] := by
  decide

/-- C7, amended.  For a node at position `index > 0` of the path whose right
neighbor is a virtual (non-physical) link, the generation-toward-left
condition matches a memory exactly when the memory is RAW and its index lies
in the first `memory_size` reserved indices extended by the literal value
`memory_size` (which coincides with the donated reserved slot only when the
reserved indices are exactly `0..2*memory_size - 1`). -/
theorem c7_amended_condition (memory_indices : List Nat)
    (memory_size index : Nat) (path neighbors : List String) (mi : MemoryInfo)
    (h1 : index < path.length - 1)
    (h2 : path.getD (index + 1) default ∉ neighbors) :
    (eg_rule_condition_left memory_indices memory_size index path neighbors mi =
        [mi] ↔
      mi.state = MemState.RAW ∧
        mi.index ∈ memory_indices.take memory_size ++ [memory_size]) := by
  unfold eg_rule_condition_left
  rw [show eg_left_memory_list memory_indices memory_size index path neighbors =
      memory_indices.take memory_size ++ [memory_size] from by
    unfold eg_left_memory_list
    rw [if_pos ⟨h1, h2⟩]]
  split_ifs with h
  · simp [h]
  · constructor
    · intro habs
      simp at habs
    · intro hc
      exact absurd hc h

/-- Witness for C7 (amended) at the typical configuration where the reserved
indices start at 0: there the literal `memory_size` is a matched index. -/
theorem c7_witness :
    eg_rule_condition_left [0, 1, 2, 3] 2 1 [nodeI, nodeM, nodeR] [nodeI]
        { index := 2, state := .RAW } = [ { index := 2, state := .RAW } ] :=
  (c7_amended_condition [0, 1, 2, 3] 2 1 [nodeI, nodeM, nodeR] [nodeI]
      { index := 2, state := .RAW } (by decide) (by decide)).mpr (by decide)

/-- Embedding of the `for node in nodewise_dest_distance` loop of
`StaticRoutingProtocol.custom_next_best_hop`.  The destination's row of the
all-pairs shortest-distance matrix is embedded as an association list in
dict-iteration (insertion) order — `json.loads(json.dumps(...))` preserves
it — and distances are embedded as integers.  `least` starts at the sentinel
`10e10` and `best` at `None`; only a strictly smaller distance replaces the
current best. -/
def nextHopGo (neighbors : List String) :
    List (String × Int) → Int → Option String → Option String
  | [], _, best => best
  | (node, dist) :: rest, least, best =>
    if node ∈ neighbors ∧ dist < least then nextHopGo neighbors rest dist (some node)
    else nextHopGo neighbors rest least best

/-- Embedding of `StaticRoutingProtocol.custom_next_best_hop`. -/
def custom_next_best_hop (neighbors : List String) (row : List (String × Int)) :
    Option String :=
  nextHopGo neighbors row (10 ^ 11) none

/-- The row entries that the loop can ever select: neighbors at distance
strictly below `least`. -/
def eligibleRow (neighbors : List String) (row : List (String × Int))
    (least : Int) : List (String × Int) :=
  row.filter (fun p => decide (p.1 ∈ neighbors) && decide (p.2 < least))

/-- The smallest eligible distance (`least` itself when nothing is
eligible). -/
def minElig (neighbors : List String) (row : List (String × Int))
    (least : Int) : Int :=
  ((eligibleRow neighbors row least).map Prod.snd).foldr min least

lemma foldr_min_le_init (L : List Int) (init : Int) : L.foldr min init ≤ init := by
  induction L with
  | nil => exact le_refl init
  | cons x xs ih => exact le_trans (min_le_right x _) ih

lemma foldr_min_le_mem (L : List Int) (init : Int) (x : Int) (hx : x ∈ L) :
    L.foldr min init ≤ x := by
  induction L with
  | nil => cases hx
  | cons y ys ih =>
    rcases List.mem_cons.mp hx with h | h
    · rw [h]; exact min_le_left _ _
    · exact le_trans (min_le_right y _) (ih h)

lemma le_foldr_min (L : List Int) (init a : Int) (h0 : a ≤ init)
    (h : ∀ x ∈ L, a ≤ x) : a ≤ L.foldr min init := by
  induction L with
  | nil => exact h0
  | cons y ys ih =>
    refine le_min (h y (List.mem_cons_self y ys)) ?_
    exact ih (fun x hx => h x (List.mem_cons_of_mem y hx))

lemma foldr_min_mem_or (L : List Int) (init : Int) :
    L.foldr min init = init ∨ L.foldr min init ∈ L := by
  induction L with
  | nil => exact Or.inl rfl
  | cons y ys ih =>
    rcases le_total y (ys.foldr min init) with h | h
    · right
      rw [List.foldr_cons, min_eq_left h]
      exact List.mem_cons_self y ys
    · rw [List.foldr_cons, min_eq_right h]
      rcases ih with h2 | h2
      · exact Or.inl h2
      · exact Or.inr (List.mem_cons_of_mem y h2)

lemma find?_congr {α : Type} (l : List α) (p q : α → Bool)
    (h : ∀ x ∈ l, p x = q x) : l.find? p = l.find? q := by
  induction l with
  | nil => rfl
  | cons x xs ih =>
    have hx := h x (List.mem_cons_self x xs)
    by_cases hp : p x = true
    · rw [List.find?_cons_of_pos _ hp, List.find?_cons_of_pos _ (hx ▸ hp)]
    · rw [List.find?_cons_of_neg _ (by simpa using hp),
        List.find?_cons_of_neg _ (by rw [← hx]; simpa using hp)]
      exact ih (fun y hy => h y (List.mem_cons_of_mem x hy))

/-- The selection predicate of the amended claim: a neighbor entry with
distance below the sentinel attaining the minimum eligible distance. -/
def hopPred (neighbors : List String) (m : Int) (p : String × Int) : Bool :=
  decide (p.1 ∈ neighbors) && decide (p.2 < 10 ^ 11) && decide (p.2 ≤ m)

/-- The predicate at an arbitrary `least` bound, used inside the loop
invariant. -/
def hopPredAt (neighbors : List String) (least m : Int) (p : String × Int) : Bool :=
  decide (p.1 ∈ neighbors) && decide (p.2 < least) && decide (p.2 ≤ m)

lemma nextHopGo_spec (neighbors : List String) :
    ∀ (todo : List (String × Int)) (least : Int) (best : Option String),
      nextHopGo neighbors todo least best =
        match todo.find? (hopPredAt neighbors least (minElig neighbors todo least)) with
        | some p => some p.1
        | none => best := by
  intro todo
  induction todo with
  | nil => intro least best; rfl
  | cons hd rest ih =>
    obtain ⟨n, d⟩ := hd
    intro least best
    by_cases hc : n ∈ neighbors ∧ d < least
    · have hhead : eligibleRow neighbors ((n, d) :: rest) least =
          (n, d) :: eligibleRow neighbors rest least := by
        unfold eligibleRow
        rw [List.filter_cons]
        simp [hc.1, hc.2]
      have hm : minElig neighbors ((n, d) :: rest) least =
          min d (minElig neighbors rest least) := by
        unfold minElig
        rw [hhead]
        rfl
      rw [nextHopGo, if_pos hc, ih]
      by_cases hrest : eligibleRow neighbors rest d = []
      · have hm2 : minElig neighbors rest d = d := by
          unfold minElig
          rw [hrest]
          rfl
        have hnone : rest.find? (hopPredAt neighbors d (minElig neighbors rest d)) =
            none := by
          rw [List.find?_eq_none]
          intro p hp habs
          have h2 : p.1 ∈ neighbors ∧ p.2 < d := by
            unfold hopPredAt at habs
            simp only [Bool.and_eq_true, decide_eq_true_eq] at habs
            exact ⟨habs.1.1, habs.1.2⟩
          have : p ∈ eligibleRow neighbors rest d := by
            unfold eligibleRow
            rw [List.mem_filter]
            exact ⟨hp, by simp [h2.1, h2.2]⟩
          rw [hrest] at this
          cases this
        have hd_le : d ≤ minElig neighbors rest least := by
          refine le_foldr_min _ _ _ (le_of_lt hc.2) ?_
          intro x hx
          obtain ⟨p, hp, hpx⟩ := List.mem_map.mp hx
          have hpe := List.mem_filter.mp hp
          by_contra hlt
          push_neg at hlt
          have : p ∈ eligibleRow neighbors rest d := by
            unfold eligibleRow
            rw [List.mem_filter]
            refine ⟨hpe.1, ?_⟩
            have h3 := hpe.2
            simp only [Bool.and_eq_true, decide_eq_true_eq] at h3 ⊢
            exact ⟨h3.1, by omega⟩
          rw [hrest] at this
          cases this
        have hheadpred : hopPredAt neighbors least
            (minElig neighbors ((n, d) :: rest) least) (n, d) = true := by
          unfold hopPredAt
          rw [hm]
          simp only [Bool.and_eq_true, decide_eq_true_eq]
          refine ⟨⟨hc.1, ?_⟩, ?_⟩
          · omega
          · exact le_min (le_refl d) hd_le
        rw [hnone, List.find?_cons_of_pos _ hheadpred]
      · obtain ⟨p0, hp0⟩ : ∃ p0, p0 ∈ eligibleRow neighbors rest d := by
          match hre : eligibleRow neighbors rest d with
          | [] => exact absurd hre hrest
          | q :: qs => exact ⟨q, hre ▸ List.mem_cons_self q qs⟩
        have hp0f := List.mem_filter.mp hp0
        have hp0c : p0.1 ∈ neighbors ∧ p0.2 < d := by
          have := hp0f.2
          simp only [Bool.and_eq_true, decide_eq_true_eq] at this
          exact this
        have hm2_le_p0 : minElig neighbors rest d ≤ p0.2 :=
          foldr_min_le_mem _ _ _ (List.mem_map.mpr ⟨p0, hp0, rfl⟩)
        have hm2_lt : minElig neighbors rest d < d := lt_of_le_of_lt hm2_le_p0 hp0c.2
        have hsubset : ∀ q ∈ eligibleRow neighbors rest d,
            q ∈ eligibleRow neighbors rest least := by
          intro q hq
          have hqf := List.mem_filter.mp hq
          have hqc : q.1 ∈ neighbors ∧ q.2 < d := by
            have := hqf.2
            simp only [Bool.and_eq_true, decide_eq_true_eq] at this
            exact this
          unfold eligibleRow
          rw [List.mem_filter]
          refine ⟨hqf.1, ?_⟩
          simp only [Bool.and_eq_true, decide_eq_true_eq]
          exact ⟨hqc.1, by omega⟩
        obtain ⟨qm, hqm, hqmx⟩ :
            ∃ q ∈ eligibleRow neighbors rest d, q.2 = minElig neighbors rest d := by
          rcases foldr_min_mem_or ((eligibleRow neighbors rest d).map Prod.snd) d with
            h | h
          · exfalso
            have hd2 : minElig neighbors rest d = d := h
            omega
          · obtain ⟨q, hq, hqx⟩ := List.mem_map.mp h
            exact ⟨q, hq, hqx⟩
        have hqmf := List.mem_filter.mp hqm
        have hqmc : qm.1 ∈ neighbors ∧ qm.2 < d := by
          have := hqmf.2
          simp only [Bool.and_eq_true, decide_eq_true_eq] at this
          exact this
        have hm1_le : minElig neighbors rest least ≤ minElig neighbors rest d := by
          rw [← hqmx]
          exact foldr_min_le_mem _ _ _ (List.mem_map.mpr ⟨qm, hsubset qm hqm, rfl⟩)
        have hm2_le : minElig neighbors rest d ≤ minElig neighbors rest least := by
          rcases foldr_min_mem_or ((eligibleRow neighbors rest least).map Prod.snd)
              least with h | h
          · have hl : minElig neighbors rest least = least := h
            omega
          · obtain ⟨q, hq, hqx⟩ := List.mem_map.mp h
            have hqf := List.mem_filter.mp hq
            have hqc : q.1 ∈ neighbors ∧ q.2 < least := by
              have := hqf.2
              simp only [Bool.and_eq_true, decide_eq_true_eq] at this
              exact this
            by_cases hqd : q.2 < d
            · have hqin : q ∈ eligibleRow neighbors rest d := by
                unfold eligibleRow
                rw [List.mem_filter]
                exact ⟨hqf.1, by simp [hqc.1, hqd]⟩
              have h4 : minElig neighbors rest d ≤ q.2 :=
                foldr_min_le_mem _ _ _ (List.mem_map.mpr ⟨q, hqin, rfl⟩)
              have h5 : q.2 = minElig neighbors rest least := hqx
              omega
            · have h5 : q.2 = minElig neighbors rest least := hqx
              omega
        have hm12 : minElig neighbors rest least = minElig neighbors rest d :=
          le_antisymm hm1_le hm2_le
        have hmcons : minElig neighbors ((n, d) :: rest) least =
            minElig neighbors rest d := by
          rw [hm, hm12]
          exact min_eq_right (le_of_lt hm2_lt)
        have hheadpred : hopPredAt neighbors least
            (minElig neighbors ((n, d) :: rest) least) (n, d) = false := by
          unfold hopPredAt
          rw [hmcons]
          simp only [Bool.and_eq_false_iff]
          right
          simp only [decide_eq_false_iff_not]
          omega
        have hpreds : ∀ q ∈ rest,
            hopPredAt neighbors d (minElig neighbors rest d) q =
              hopPredAt neighbors least (minElig neighbors rest d) q := by
          intro q hq
          unfold hopPredAt
          by_cases hqm2 : q.2 ≤ minElig neighbors rest d
          · have h1 : q.2 < d := by omega
            have h2 : q.2 < least := by omega
            simp [h1, h2, hqm2]
          · simp [hqm2]
        rw [List.find?_cons_of_neg _ (by simp [hheadpred]), hmcons,
          find?_congr rest _ _ hpreds]
        have hfind : (rest.find?
            (hopPredAt neighbors least (minElig neighbors rest d))).isSome := by
          rw [List.find?_isSome]
          refine ⟨qm, hqmf.1, ?_⟩
          unfold hopPredAt
          simp only [Bool.and_eq_true, decide_eq_true_eq]
          refine ⟨⟨hqmc.1, by omega⟩, le_of_eq hqmx⟩
        cases hf : rest.find? (hopPredAt neighbors least (minElig neighbors rest d)) with
        | none => rw [hf] at hfind; cases hfind
        | some q => rfl
    · have hhead : eligibleRow neighbors ((n, d) :: rest) least =
          eligibleRow neighbors rest least := by
        unfold eligibleRow
        rw [List.filter_cons]
        have hfalse : (decide (n ∈ neighbors) && decide (d < least)) = false := by
          rcases not_and_or.mp hc with h | h <;> simp [h]
        rw [hfalse]
        simp
      have hm : minElig neighbors ((n, d) :: rest) least =
          minElig neighbors rest least := by
        unfold minElig
        rw [hhead]
      rw [nextHopGo, if_neg hc, ih, hm]
      have hheadpred : hopPredAt neighbors least (minElig neighbors rest least)
          (n, d) = false := by
        unfold hopPredAt
        simp only [Bool.and_eq_false_iff]
        left
        rcases not_and_or.mp hc with h | h <;> simp [h]
      rw [List.find?_cons_of_neg _ (by simp [hheadpred])]

/-- Node names used in the routing counterexample. -/
def nodeA : String := "a"

def nodeB : String := "b"

/-- C4, counterexample.  When the destination's distance row lists `b` before
`a` and both are neighbors at the same minimal distance, the code keeps the
first strict improvement — `b` — whereas the claim requires the
lexicographically smallest name `a`. -/
theorem c4_counterexample :
    custom_next_best_hop [nodeA, nodeB] [(nodeB, 5), (nodeA, 5)] = some nodeB ∧
      nodeA < nodeB ∧ nodeA ≠ nodeB ∧
      nodeA ∈ [nodeA, nodeB] ∧
      (nodeA, (5 : Int)) ∈ [(nodeB, (5 : Int)), (nodeA, 5)] ∧
      (∀ p ∈ [(nodeB, (5 : Int)), (nodeA, 5)], 5 ≤ p.2) := by
  refine ⟨by decide, ?_, by decide, by decide, by decide, by decide⟩
  rw [String.lt_iff_toList_lt]
  decide

/-- C4, amended.  The chosen next hop is the entry of the destination's
distance row whose node is a physical neighbor with distance strictly below
the `10e10` sentinel and minimal among all such entries; among several
minimizers, the one appearing first in the row's iteration (insertion) order
is chosen — not the lexicographically smallest name.  `none` is returned
when no neighbor is eligible. -/
theorem c4_amended_next_hop (neighbors : List String)
    (row : List (String × Int)) :
    custom_next_best_hop neighbors row =
      Option.map Prod.fst
        (row.find? (hopPredAt neighbors (10 ^ 11)
          (minElig neighbors row (10 ^ 11)))) := by
  rw [custom_next_best_hop, nextHopGo_spec neighbors row (10 ^ 11) none]
  cases hf : row.find? (hopPredAt neighbors (10 ^ 11)
      (minElig neighbors row (10 ^ 11))) with
  | none => rfl
  | some q => rfl

/-- Elements of a list at even positions — Python's `path[::2]`. -/
def evens {α : Type} : List α → List α
  | [] => []
  | [a] => [a]
  | a :: _ :: rest => a :: evens rest

/-- Embedding of the list comprehension in `create_rules`:
`[n for i, n in enumerate(_path) if i % 2 == 0 or i == len(_path) - 1]`,
i.e. the elements at even positions plus the final element (once). -/
def codeHalve {α : Type} : List α → List α
  | [] => []
  | [a] => [a]
  | [a, b] => [a, b]
  | a :: b :: c :: rest => a :: codeHalve (c :: rest)

/-- Python's `l[-1]` with a default for the empty list (never reached in the
verified configurations). -/
def pyLast {α : Type} (d : α) : List α → α
  | [] => d
  | [a] => a
  | _ :: b :: rest => pyLast d (b :: rest)

/-- The halving step as the claim words it: `path[::2] + [path[-1]]`.  This
is the claim-side reference definition to be compared with `codeHalve`. -/
def specHalve (p : List String) : List String :=
  match p with
  | [] => []
  | _ => evens p ++ [pyLast default p]

/-- Python's `list.index`: position of the first occurrence (unspecified, 0,
for an absent element — `.index` raises there, which is never reached under
the membership hypotheses used below). -/
def pyIndex (x : String) : List String → Nat
  | [] => 0
  | a :: rest => if a = x then 0 else pyIndex x rest + 1

/-- Embedding of the `while _path.index(self.own.name) % 2 == 0` loop of
`create_rules` (middle-node swapping), with fuel; `none` models
non-termination of the Python loop, which cannot occur for a middle node. -/
def esLoopCode (own : String) : Nat → List String → Option (List String)
  | 0, p => if pyIndex own p % 2 = 0 then none else some p
  | f + 1, p =>
    if pyIndex own p % 2 = 0 then esLoopCode own f (codeHalve p) else some p

/-- The same loop with the claim's halving step `path[::2] + [path[-1]]`. -/
def esLoopSpec (own : String) : Nat → List String → Option (List String)
  | 0, p => if pyIndex own p % 2 = 0 then none else some p
  | f + 1, p =>
    if pyIndex own p % 2 = 0 then esLoopSpec own f (specHalve p) else some p

/-- The swap partners read off the reduced path:
`left, right = _path[_index - 1], _path[_index + 1]`. -/
def swapPartners (own : String) (q : List String) : String × String :=
  (q.getD (pyIndex own q - 1) default, q.getD (pyIndex own q + 1) default)

lemma evens_length {α : Type} : ∀ (p : List α), (evens p).length = (p.length + 1) / 2
  | [] => by simp [evens]
  | [a] => by simp [evens]
  | a :: b :: rest => by
    simp only [evens, List.length_cons]
    rw [evens_length rest]
    omega

lemma pyLast_cons_of_ne_nil {α : Type} (d : α) (a : α) (l : List α) (h : l ≠ []) :
    pyLast d (a :: l) = pyLast d l := by
  match l with
  | [] => exact absurd rfl h
  | b :: rest => rfl

lemma evens_ne_nil {α : Type} (p : List α) (h : p ≠ []) : evens p ≠ [] := by
  match p with
  | [a] => simp [evens]
  | a :: b :: rest => simp [evens]

lemma codeHalve_odd {α : Type} : ∀ (p : List α), p.length % 2 = 1 →
    codeHalve p = evens p
  | [], h => by simp at h
  | [a], _ => rfl
  | [a, b], h => by simp at h
  | a :: b :: c :: rest, h => by
    simp only [codeHalve, evens]
    rw [codeHalve_odd (c :: rest) (by simp at h ⊢; omega)]

lemma codeHalve_even {α : Type} (d : α) : ∀ (p : List α), p ≠ [] →
    p.length % 2 = 0 → codeHalve p = evens p ++ [pyLast d p]
  | [], h, _ => absurd rfl h
  | [a], _, h => by simp at h
  | [a, b], _, _ => rfl
  | a :: b :: c :: rest, _, h => by
    simp only [codeHalve, evens, pyLast]
    rw [codeHalve_even d (c :: rest) (by simp) (by simp at h ⊢; omega)]
    rfl

lemma pyLast_evens_odd {α : Type} (d : α) : ∀ (p : List α), p.length % 2 = 1 →
    pyLast d (evens p) = pyLast d p
  | [], h => by simp at h
  | [a], _ => rfl
  | a :: b :: rest, h => by
    have hrest : rest.length % 2 = 1 := by simp at h ⊢; omega
    have hne : rest ≠ [] := by
      intro habs
      rw [habs] at hrest
      simp at hrest
    show pyLast d (a :: evens rest) = pyLast d (a :: b :: rest)
    rw [pyLast_cons_of_ne_nil d a (evens rest) (evens_ne_nil rest hne),
      pyLast_evens_odd d rest hrest]
    show pyLast d rest = pyLast d (b :: rest)
    rw [pyLast_cons_of_ne_nil d b rest hne]

lemma pyLast_append_singleton {α : Type} (d : α) : ∀ (l : List α) (x : α),
    pyLast d (l ++ [x]) = x
  | [], x => rfl
  | [a], x => rfl
  | a :: b :: rest, x => by
    show pyLast d (a :: (b :: rest ++ [x])) = x
    rw [pyLast_cons_of_ne_nil d a (b :: rest ++ [x]) (by simp)]
    exact pyLast_append_singleton d (b :: rest) x

lemma pyLast_codeHalve {α : Type} (d : α) (p : List α) (h : p ≠ []) :
    pyLast d (codeHalve p) = pyLast d p := by
  rcases Nat.even_or_odd p.length with he | ho
  · have h2 : p.length % 2 = 0 := Nat.even_iff.mp he
    rw [codeHalve_even d p h h2, pyLast_append_singleton]
  · have h2 : p.length % 2 = 1 := Nat.odd_iff.mp ho
    rw [codeHalve_odd p h2, pyLast_evens_odd d p h2]

lemma evens_append_singleton_even {α : Type} : ∀ (p : List α) (x : α),
    p.length % 2 = 0 → evens (p ++ [x]) = evens p ++ [x]
  | [], x, _ => rfl
  | [a], x, h => by simp at h
  | [a, b], x, _ => rfl
  | a :: b :: c :: rest, x, h => by
    show evens (a :: b :: (c :: rest ++ [x])) = (a :: evens (c :: rest)) ++ [x]
    rw [show evens (a :: b :: (c :: rest ++ [x])) =
        a :: evens (c :: rest ++ [x]) from rfl]
    rw [evens_append_singleton_even (c :: rest) x (by simp at h ⊢; omega)]
    rfl

lemma evens_append_singleton_odd {α : Type} : ∀ (p : List α) (x : α),
    p.length % 2 = 1 → evens (p ++ [x]) = evens p
  | [], x, h => by simp at h
  | [a], x, _ => rfl
  | a :: b :: rest, x, h => by
    show evens (a :: b :: (rest ++ [x])) = a :: evens rest
    rw [show evens (a :: b :: (rest ++ [x])) = a :: evens (rest ++ [x]) from rfl]
    rw [evens_append_singleton_odd rest x (by simp at h ⊢; omega)]

lemma pyIndex_append_left (x : String) (l l2 : List String) (h : x ∈ l) :
    pyIndex x (l ++ l2) = pyIndex x l := by
  induction l with
  | nil => cases h
  | cons a rest ih =>
    by_cases ha : a = x
    · simp [pyIndex, ha]
    · rcases List.mem_cons.mp h with h2 | h2
      · exact absurd h2.symm ha
      · simp only [List.cons_append, pyIndex, if_neg ha, List.append_eq]
        rw [ih h2]

lemma pyIndex_lt_length (x : String) : ∀ (l : List String), x ∈ l →
    pyIndex x l < l.length
  | [], h => absurd h (List.not_mem_nil x)
  | a :: rest, h => by
    by_cases ha : a = x
    · simp [pyIndex, ha]
    · have h2 : x ∈ rest := by
        rcases List.mem_cons.mp h with h3 | h3
        · exact absurd h3.symm ha
        · exact h3
      simp only [pyIndex, if_neg ha, List.length_cons]
      exact Nat.succ_lt_succ (pyIndex_lt_length x rest h2)

lemma pyIndex_getD (x : String) (dd : String) : ∀ (l : List String), x ∈ l →
    l.getD (pyIndex x l) dd = x
  | [], h => absurd h (List.not_mem_nil x)
  | a :: rest, h => by
    by_cases ha : a = x
    · simp [pyIndex, ha]
    · have h2 : x ∈ rest := by
        rcases List.mem_cons.mp h with h3 | h3
        · exact absurd h3.symm ha
        · exact h3
      simp only [pyIndex, if_neg ha]
      exact pyIndex_getD x dd rest h2

lemma getD_append_left (dd : String) : ∀ (l l2 : List String) (n : Nat),
    n < l.length → (l ++ l2).getD n dd = l.getD n dd
  | [], _, n, h => by simp at h
  | a :: rest, l2, 0, _ => rfl
  | a :: rest, l2, n + 1, h => by
    simp only [List.cons_append, List.getD_cons_succ]
    exact getD_append_left dd rest l2 n (by simp at h; omega)

lemma mem_evens_and_index (x : String) : ∀ (p : List String), x ∈ p →
    pyIndex x p % 2 = 0 → x ∈ evens p ∧ pyIndex x (evens p) = pyIndex x p / 2
  | [], h, _ => absurd h (List.not_mem_nil x)
  | [a], h, _ => by
    rcases List.mem_singleton.mp h with rfl
    exact ⟨List.mem_singleton_self x, by simp [evens, pyIndex]⟩
  | a :: b :: rest, h, heven => by
    by_cases ha : a = x
    · subst ha
      refine ⟨List.mem_cons_self a _, ?_⟩
      simp [evens, pyIndex]
    · have hidx : pyIndex x (a :: b :: rest) = pyIndex x (b :: rest) + 1 := by
        simp [pyIndex, ha]
      by_cases hb : b = x
      · exfalso
        have : pyIndex x (b :: rest) = 0 := by simp [pyIndex, hb]
        rw [hidx, this] at heven
        simp at heven
      · have hidx2 : pyIndex x (b :: rest) = pyIndex x rest + 1 := by
          simp [pyIndex, hb]
        have hxrest : x ∈ rest := by
          rcases List.mem_cons.mp h with h2 | h2
          · exact absurd h2.symm ha
          rcases List.mem_cons.mp h2 with h3 | h3
          · exact absurd h3.symm hb
          · exact h3
        have hresteven : pyIndex x rest % 2 = 0 := by
          rw [hidx, hidx2] at heven
          omega
        obtain ⟨hm, hi⟩ := mem_evens_and_index x rest hxrest hresteven
        constructor
        · show x ∈ a :: evens rest
          exact List.mem_cons_of_mem a hm
        · show pyIndex x (a :: evens rest) = pyIndex x (a :: b :: rest) / 2
          rw [hidx, hidx2]
          simp only [pyIndex, if_neg ha]
          rw [hi]
          omega

lemma specHalve_of_ne_nil (p : List String) (h : p ≠ []) :
    specHalve p = evens p ++ [pyLast default p] := by
  match p with
  | [] => exact absurd rfl h
  | a :: rest => rfl

lemma codeHalve_length_even (p : List String) (h : p ≠ [])
    (hp : p.length % 2 = 0) : (codeHalve p).length = p.length / 2 + 1 := by
  rw [codeHalve_even (default : String) p h hp]
  rw [List.length_append, evens_length]
  simp
  omega

lemma codeHalve_length_odd (p : List String) (hp : p.length % 2 = 1) :
    (codeHalve p).length = (p.length + 1) / 2 := by
  rw [codeHalve_odd p hp]
  exact evens_length p

lemma esLoop_agree (own : String) :
    ∀ (n : Nat) (p q : List String),
      own ∈ p → 0 < pyIndex own p → pyIndex own p < p.length - 1 →
      (q = p ∨ q = p ++ [pyLast default p]) → pyIndex own p ≤ n →
      ∃ pc qc, esLoopCode own n p = some pc ∧ esLoopSpec own n q = some qc ∧
        own ∈ pc ∧ 0 < pyIndex own pc ∧ pyIndex own pc < pc.length - 1 ∧
        pyIndex own pc % 2 = 1 ∧
        (qc = pc ∨ qc = pc ++ [pyLast default pc]) := by
  intro n
  induction n with
  | zero =>
    intro p q hmem h0 htop hq hle
    omega
  | succ n ih =>
    intro p q hmem h0 htop hq hle
    have hqidx : pyIndex own q = pyIndex own p := by
      rcases hq with rfl | rfl
      · rfl
      · exact pyIndex_append_left own p _ hmem
    by_cases heven : pyIndex own p % 2 = 0
    · have hne : p ≠ [] := by rintro rfl; cases hmem
      have hi2 : 2 ≤ pyIndex own p := by omega
      obtain ⟨hmem2, hidx2⟩ := mem_evens_and_index own p hmem heven
      have hcode : esLoopCode own (n + 1) p = esLoopCode own n (codeHalve p) := by
        rw [esLoopCode, if_pos heven]
      have hspec : esLoopSpec own (n + 1) q = esLoopSpec own n (specHalve q) := by
        rw [esLoopSpec, if_pos (hqidx ▸ heven)]
      have hmemH : own ∈ codeHalve p := by
        rcases Nat.even_or_odd p.length with he | ho
        · rw [codeHalve_even (default : String) p hne (Nat.even_iff.mp he)]
          exact List.mem_append_left _ hmem2
        · rw [codeHalve_odd p (Nat.odd_iff.mp ho)]
          exact hmem2
      have hidxH : pyIndex own (codeHalve p) = pyIndex own p / 2 := by
        rcases Nat.even_or_odd p.length with he | ho
        · rw [codeHalve_even (default : String) p hne (Nat.even_iff.mp he),
            pyIndex_append_left own (evens p) _ hmem2]
          exact hidx2
        · rw [codeHalve_odd p (Nat.odd_iff.mp ho)]
          exact hidx2
      have h0H : 0 < pyIndex own (codeHalve p) := by
        rw [hidxH]; omega
      have htopH : pyIndex own (codeHalve p) < (codeHalve p).length - 1 := by
        rcases Nat.even_or_odd p.length with he | ho
        · have hp := Nat.even_iff.mp he
          rw [hidxH, codeHalve_length_even p hne hp]
          omega
        · have hp := Nat.odd_iff.mp ho
          rw [hidxH, codeHalve_length_odd p hp]
          omega
      have hlast : pyLast (default : String) (codeHalve p) = pyLast default p :=
        pyLast_codeHalve default p hne
      have hqH : specHalve q = codeHalve p ∨
          specHalve q = codeHalve p ++ [pyLast default (codeHalve p)] := by
        rcases hq with hq1 | hq1
        · rw [hq1, specHalve_of_ne_nil p hne]
          rcases Nat.even_or_odd p.length with he | ho
          · left
            rw [codeHalve_even (default : String) p hne (Nat.even_iff.mp he)]
          · right
            rw [hlast, codeHalve_odd p (Nat.odd_iff.mp ho)]
        · have hqne : p ++ [pyLast default p] ≠ [] := by simp
          rw [hq1, specHalve_of_ne_nil _ hqne,
            pyLast_append_singleton default p (pyLast default p)]
          rcases Nat.even_or_odd p.length with he | ho
          · have hp := Nat.even_iff.mp he
            right
            rw [hlast, evens_append_singleton_even p _ hp,
              codeHalve_even (default : String) p hne hp]
          · have hp := Nat.odd_iff.mp ho
            right
            rw [hlast, evens_append_singleton_odd p _ hp,
              codeHalve_odd p hp]
      have hleH : pyIndex own (codeHalve p) ≤ n := by
        rw [hidxH]; omega
      obtain ⟨pc, qc, hpc, hqc, hrest⟩ :=
        ih (codeHalve p) (specHalve q) hmemH h0H htopH hqH hleH
      exact ⟨pc, qc, hcode ▸ hpc, hspec ▸ hqc, hrest⟩
    · refine ⟨p, q, ?_, ?_, hmem, h0, htop, by omega, hq⟩
      · rw [esLoopCode, if_neg heven]
      · rw [esLoopSpec, if_neg (by rw [hqidx]; exact heven)]

/-- C8.  For a middle node (`0 < index < len - 1`) of the path, the code's
reduction loop (comprehension keeping even positions plus the final element)
terminates, the claim's reduction loop (`path[::2] + [path[-1]]`)
terminates, and both yield the same `(left, right)` swap partners.  The two
halving steps differ on odd-length paths — the claim's duplicates the last
element — but the duplicate never changes the node's index nor its two
neighbors in the reduced path. -/
theorem c8_swap_partners_agree (own : String) (path : List String)
    (hmem : own ∈ path) (h0 : 0 < pyIndex own path)
    (htop : pyIndex own path < path.length - 1) :
    (esLoopCode own (pyIndex own path) path).isSome = true ∧
      (esLoopSpec own (pyIndex own path) path).isSome = true ∧
      Option.map (swapPartners own) (esLoopCode own (pyIndex own path) path) =
        Option.map (swapPartners own) (esLoopSpec own (pyIndex own path) path) := by
  obtain ⟨pc, qc, hpc, hqc, hmemc, h0c, htopc, hodd, hrel⟩ :=
    esLoop_agree own (pyIndex own path) path path hmem h0 htop (Or.inl rfl)
      (le_refl _)
  rw [hpc, hqc]
  refine ⟨rfl, rfl, ?_⟩
  simp only [Option.map_some']
  rcases hrel with hrel | hrel
  · rw [hrel]
  · congr 1
    rw [hrel]
    unfold swapPartners
    rw [pyIndex_append_left own pc _ hmemc]
    have hlt : pyIndex own pc + 1 < pc.length := by omega
    have hlt2 : pyIndex own pc - 1 < pc.length := by omega
    rw [getD_append_left default pc _ _ hlt2, getD_append_left default pc _ _ hlt]

/-- Additional node names for the five-node witness path. -/
def nodeC : String := "c"

def nodeD : String := "d"

def nodeE : String := "e"

/-- Witness for C8 on the five-node path `a b c d e` with middle node `c`
(index 2): one halving yields `[a, c, e]` for the code and `[a, c, e, e]`
for the claim's formula; both give partners `(a, e)`. -/
theorem c8_witness :
    (esLoopCode nodeC (pyIndex nodeC [nodeA, nodeB, nodeC, nodeD, nodeE])
        [nodeA, nodeB, nodeC, nodeD, nodeE]).isSome = true ∧
      (esLoopSpec nodeC (pyIndex nodeC [nodeA, nodeB, nodeC, nodeD, nodeE])
        [nodeA, nodeB, nodeC, nodeD, nodeE]).isSome = true ∧
      Option.map (swapPartners nodeC)
          (esLoopCode nodeC (pyIndex nodeC [nodeA, nodeB, nodeC, nodeD, nodeE])
            [nodeA, nodeB, nodeC, nodeD, nodeE]) =
        Option.map (swapPartners nodeC)
          (esLoopSpec nodeC (pyIndex nodeC [nodeA, nodeB, nodeC, nodeD, nodeE])
            [nodeA, nodeB, nodeC, nodeD, nodeE]) :=
  c8_swap_partners_agree nodeC [nodeA, nodeB, nodeC, nodeD, nodeE]
    (by decide) (by decide) (by decide)
